import Mathlib

/-!
Verification of the vault query engine (path guard, wikilink parsing and
resolution, link-graph traversal, relevance ranking, full-text search).

Strings are modelled as `List Char`; the filesystem scan result (the corpus)
is modelled as an explicit list of markdown files in scan order, since the
directory walk itself is I/O.  All definitions are direct translations of
the corresponding functions in `src/vault/vault.ts`.
-/

namespace Gneiss

/-- A string, modelled as a list of characters. -/
abbrev Str := List Char

/-- Lower-casing, as JavaScript `toLowerCase` restricted to ASCII. -/
def toLower (s : Str) : Str := s.map Char.toLower

/-- The whitespace characters recognised by JavaScript `trim` / `\s`
(ASCII subset). -/
def isWs (c : Char) : Bool :=
  c = ' ' || c = '\t' || c = '\n' || c = '\r' || c = '\x0b' || c = '\x0c'

/-- JavaScript `String.prototype.trim`: strip whitespace from both ends. -/
def jsTrim (s : Str) : Str :=
  ((s.dropWhile isWs).reverse.dropWhile isWs).reverse

/-- Split a string on a separator character (JavaScript `split(sep)`):
`"a/b" ↦ ["a","b"]`, `"/a" ↦ ["","a"]`, `"" ↦ [""]`. -/
def splitOnChar (sep : Char) : Str → List Str
  | [] => [[]]
  | c :: rest =>
    if c = sep then [] :: splitOnChar sep rest
    else
      match splitOnChar sep rest with
      | [] => [[c]]
      | s :: ss => (c :: s) :: ss

/-! ### Path resolution (Node `path.posix`) and the path guard -/

/-- A path segment. -/
abbrev Seg := List Char

/-- A segment list is sane when every segment is nonempty and free of the
path separator (true of any normalized absolute path's segments). -/
def SaneSegs (l : List Seg) : Prop := ∀ s ∈ l, s ≠ [] ∧ '/' ∉ s

instance : DecidablePred SaneSegs := fun l =>
  inferInstanceAs (Decidable (∀ s ∈ l, s ≠ [] ∧ '/' ∉ s))

/-- Node path normalization over segments: empty and `"."` segments are
dropped, `".."` pops the previous segment (clamped at the filesystem root,
as for absolute paths). -/
def normSegs (acc : List Seg) : List Str → List Seg
  | [] => acc
  | s :: rest =>
    if s = [] ∨ s = ['.'] then normSegs acc rest
    else if s = ['.', '.'] then normSegs acc.dropLast rest
    else normSegs (acc ++ [s]) rest

/-- Node `path.resolve(root, p)` for an absolute, normalized `root` given
as segments: an absolute `p` replaces the root, a relative one is resolved
against it. Returns the normalized segment list of the result. -/
def nodeResolve (root : List Seg) (p : Str) : List Seg :=
  match p with
  | '/' :: _ => normSegs [] (splitOnChar '/' p)
  | _ => normSegs root (splitOnChar '/' p)

/-- Render an absolute path from its segments (`["a","b"] ↦ "/a/b"`). -/
def strOfAbs : List Seg → Str
  | [] => []
  | s :: rest => '/' :: (s ++ strOfAbs rest)

/-- Error raised by the path guard. -/
inductive PathErr where
  | pathEscapesRoot
  deriving DecidableEq

/-- `Vault.resolveSafe`: resolve a user-supplied path against the vault
root and reject it unless the resolved absolute path is the root itself or
starts with `root ++ "/"` (byte-prefix check with separator boundary). -/
def resolveSafe (root : List Seg) (p : Str) : Except PathErr Str :=
  let rootStr := strOfAbs root
  let res := strOfAbs (nodeResolve root p)
  if res = rootStr ∨ (rootStr ++ ['/']) <+: res then .ok res
  else .error .pathEscapesRoot

/-! ### Corpus model -/

/-- A markdown file of the corpus: vault-relative path (forward-slash
separated, original case) and raw content.  The corpus list is the output
of `collectMarkdownFiles` in scan order. -/
structure MdFile where
  path : Str
  content : Str
  deriving DecidableEq

/-- The `".md"` extension. -/
def mdExt : Str := ['.', 'm', 'd']

/-- Node `basename(p, ".md")`: the last path segment, with a trailing
`".md"` stripped when the segment is not itself `".md"`. -/
def basenameNoMd (p : Str) : Str :=
  let base := (splitOnChar '/' p).getLastD []
  if base ≠ mdExt ∧ mdExt <:+ base then base.take (base.length - 3) else base

/-! ### Wikilink extraction (`Vault.parseWikilinks`)

The regex `\[\[([^\]|#]+)[^\]]*\]\]` applied with a global exec loop: at a
match position `[[` must be followed by a nonempty run of characters none
of which is `]`, `|` or `#` (the capture), then any characters other than
`]`, then `]]`.  On failure the scan advances one character; on success it
continues after the closing `]]`. -/

/-- One fueled scan step of the regex loop; the fuel is only a structural
termination device (`s.length + 1` always suffices, since every step
consumes at least one character). -/
def scanLinksF : Nat → Str → List Str
  | 0, _ => []
  | _ + 1, [] => []
  | fuel + 1, c :: rest =>
    match c, rest with
    | '[', '[' :: rest2 =>
      let cap := rest2.takeWhile (fun d => !(d = ']' || d = '|' || d = '#'))
      if cap.isEmpty then scanLinksF fuel ('[' :: rest2)
      else
        match (rest2.drop cap.length).dropWhile (fun d => d ≠ ']') with
        | ']' :: ']' :: rest3 => cap :: scanLinksF fuel rest3
        | _ => scanLinksF fuel ('[' :: rest2)
    | _, _ => scanLinksF fuel rest

/-- All raw captures of the wikilink regex over a content string. -/
def scanLinks (s : Str) : List Str := scanLinksF (s.length + 1) s

/-- First-occurrence deduplication (JavaScript `Set` insertion order). -/
def dedupFirst (l : List Str) : List Str :=
  l.foldl (fun acc x => if acc.contains x then acc else acc ++ [x]) []

/-- `Vault.parseWikilinks`: regex captures, trimmed, deduplicated keeping
first-appearance order. -/
def parseWikilinks (content : Str) : List Str :=
  dedupFirst ((scanLinks content).map jsTrim)

/-! ### JavaScript `Map` model (insertion-ordered association list) -/

/-- `Map.set`: overwrite in place, else append (insertion order kept). -/
def mapSet {β : Type} : List (Str × β) → Str → β → List (Str × β)
  | [], k, v => [(k, v)]
  | (k', v') :: rest, k, v =>
    if k' = k then (k, v) :: rest else (k', v') :: mapSet rest k v

/-- `Map.get`. -/
def mapGet {β : Type} : List (Str × β) → Str → Option β
  | [], _ => none
  | (k', v') :: rest, k => if k' = k then some v' else mapGet rest k

/-- `Map.get(k)` followed by pushing onto the stored list (creating it when
absent), as in the backward-map construction. -/
def mapPush {β : Type} : List (Str × List β) → Str → β → List (Str × List β)
  | [], k, v => [(k, [v])]
  | (k', vs) :: rest, k, v =>
    if k' = k then (k', vs ++ [v]) :: rest else (k', vs) :: mapPush rest k v

/-- `Map.values()` in insertion order. -/
def mapValues {β : Type} (m : List (Str × β)) : List β := m.map (·.2)

/-! ### Link resolution and the link index -/

/-- Strip a trailing `".md"` (case-insensitively) from a wikilink target. -/
def stripMd (t : Str) : Str :=
  if mdExt <:+ toLower t then t.take (t.length - 3) else t

/-- `Vault.resolveWikilink`: for a target containing a path separator, scan
the basename index values for a (case-insensitive) exact relative-path
match; in all cases fall back to the case-insensitive basename lookup.
`none` marks a dangling reference. -/
def resolveWikilink (target : Str) (fi : List (Str × Str)) : Option Str :=
  let normalized := stripMd target
  let viaPath :=
    if target.contains '/' then
      (fi.find? (fun kv =>
        kv.2 = normalized ++ mdExt ∨ toLower kv.2 = toLower (normalized ++ mdExt))).map (·.2)
    else none
  match viaPath with
  | some p => some p
  | none => mapGet fi (toLower normalized)

/-- The basename→path table of `Vault.buildLinkIndex`: keyed by the
lower-cased basename without extension; a later file overwrites an earlier
one with the same key. -/
def fileIndexOf (files : List MdFile) : List (Str × Str) :=
  files.foldl (fun m f => mapSet m (toLower (basenameNoMd f.path)) f.path) []

/-- The forward link map of `Vault.buildLinkIndex`: each file maps to its
resolved wikilink targets, keeping the literal token for dangling links. -/
def forwardOf (files : List MdFile) (fi : List (Str × Str)) :
    List (Str × List Str) :=
  files.foldl
    (fun m f =>
      mapSet m f.path
        ((parseWikilinks f.content).map (fun t => (resolveWikilink t fi).getD t)))
    []

/-- The backward map of `Vault.graph`: the structural inverse of the
forward map. -/
def backwardOf (fwd : List (Str × List Str)) : List (Str × List Str) :=
  fwd.foldl (fun m kv => kv.2.foldl (fun m t => mapPush m t kv.1) m) []

/-! ### Graph traversal (`Vault.graph`) -/

/-- Traversal direction. -/
inductive Dir where
  | forward | backward | both
  deriving DecidableEq

/-- A node of the returned graph. -/
structure GNode where
  path : Str
  depth : Nat
  existsFlag : Bool
  deriving DecidableEq

/-- The result of `Vault.graph`. -/
structure GraphResult where
  root : Str
  nodes : List GNode
  edges : List (Str × Str)
  deriving DecidableEq

/-- The inner `for (const edge of neighbors)` loop: record the edge unless
an identical pair is present, and assign a depth to / enqueue the other
endpoint unless it was already discovered.  Returns the updated node map,
edge list and the newly enqueued items. -/
def stepNeighbors (current : Str) (nextDepth : Nat) :
    List (Str × Str) → List (Str × Nat) → List (Str × Str) → List (Str × Nat) →
    List (Str × Nat) × List (Str × Str) × List (Str × Nat)
  | [], nodes, edges, newQ => (nodes, edges, newQ)
  | e :: es, nodes, edges, newQ =>
    let edges' := if edges.contains e then edges else edges ++ [e]
    let nb := if e.1 = current then e.2 else e.1
    if nodes.any (fun kv => kv.1 = nb) then
      stepNeighbors current nextDepth es nodes edges' newQ
    else
      stepNeighbors current nextDepth es (nodes ++ [(nb, nextDepth)]) edges'
        (newQ ++ [(nb, nextDepth)])

/-- The breadth-first `while (queue.length > 0)` loop.  The fuel is a
structural termination device only: each iteration dequeues one item, and
the total number of enqueues is bounded by one (the root) plus the total
length of all adjacency lists, so the fuel chosen in `graphCore` never
runs out. -/
def graphGo (fwd bwd : List (Str × List Str)) (dir : Dir) (depthLimit : Nat) :
    Nat → List (Str × Nat) → List (Str × Nat) → List (Str × Str) →
    List (Str × Nat) × List (Str × Str)
  | 0, _, nodes, edges => (nodes, edges)
  | _ + 1, [], nodes, edges => (nodes, edges)
  | fuel + 1, (p, d) :: rest, nodes, edges =>
    if depthLimit ≤ d then graphGo fwd bwd dir depthLimit fuel rest nodes edges
    else
      let fwdN :=
        if dir = .forward ∨ dir = .both then
          ((mapGet fwd p).getD []).map (fun t => (p, t))
        else []
      let bwdN :=
        if dir = .backward ∨ dir = .both then
          ((mapGet bwd p).getD []).map (fun s => (s, p))
        else []
      let st := stepNeighbors p (d + 1) (fwdN ++ bwdN) nodes edges []
      graphGo fwd bwd dir depthLimit fuel (rest ++ st.2.2) st.1 st.2.1

/-- Total length of the adjacency lists of a link map. -/
def adjSize (m : List (Str × List Str)) : Nat := (m.map (fun kv => kv.2.length)).sum

/-- `Vault.graph` over a corpus snapshot, with the root already given as a
normalized vault-relative path (the `resolveSafe`/`relative` boundary is
covered by `resolveSafe`).  Builds the per-call link index, runs the BFS
and decorates nodes with the `exists` flag taken from the set of values of
the basename index. -/
def graphCore (corpus : List MdFile) (rootPath : Str) (depthLimit : Nat)
    (dir : Dir) : GraphResult :=
  let fi := fileIndexOf corpus
  let fwd := forwardOf corpus fi
  let bwd := backwardOf fwd
  let fuel := (adjSize fwd + adjSize bwd).succ.succ
  let st := graphGo fwd bwd dir depthLimit fuel [(rootPath, 0)] [(rootPath, 0)] []
  { root := rootPath
    nodes := st.1.map (fun kv => ⟨kv.1, kv.2, (mapValues fi).contains kv.1⟩)
    edges := st.2 }

/-! ### Relevance ranking (`Vault.surface`) -/

/-- A corpus document for `surface`, after the external front-matter
adapter has split it: vault-relative path, coerced `tags` and `aliases`
lists, optional `summary`, and the body text. -/
structure SDoc where
  relPath : Str
  tags : List Str
  aliases : List Str
  summary : Option Str
  body : Str
  deriving DecidableEq

/-- One entry of the `surface` result list. -/
structure SurfaceResult where
  path : Str
  score : Nat
  tags : List Str
  summary : Option Str
  matchedSignals : List Str
  deriving DecidableEq

/-- Options of `surface` (the subtree filter is part of the corpus-scan
boundary and is reflected in the corpus argument). -/
structure SOpts where
  tags : List Str := []
  limit : Option Nat := none
  deriving DecidableEq

/-- The signal tokens pushed onto `matchedSignals`. -/
def tagTok (t : Str) : Str := 't' :: 'a' :: 'g' :: ':' :: t
/-- Alias signal token. -/
def aliasTok (t : Str) : Str := 'a' :: 'l' :: 'i' :: 'a' :: 's' :: ':' :: t
/-- Filename signal token. -/
def fileTok (t : Str) : Str :=
  'f' :: 'i' :: 'l' :: 'e' :: 'n' :: 'a' :: 'm' :: 'e' :: ':' :: t
/-- Summary signal token. -/
def sumTok (t : Str) : Str := 's' :: 'u' :: 'm' :: 'm' :: 'a' :: 'r' :: 'y' :: ':' :: t
/-- Body signal token. -/
def bodyTok (t : Str) : Str := 'b' :: 'o' :: 'd' :: 'y' :: ':' :: t

/-- One conditional `score += w; matchedSignals.push(tok)` block. -/
def addSig (cond : Bool) (w : Nat) (tok : Str) (acc : Nat × List Str) :
    Nat × List Str :=
  if cond then (acc.1 + w, acc.2 ++ [tok]) else acc

/-- Whether a document tag matches a term exactly or as a hierarchical
prefix (`term + "/"`). -/
def tagMatches (tags : List Str) (term : Str) : Bool :=
  tags.any (fun t => toLower t = term ∨ (term ++ ['/']) <+: toLower t)

/-- The five signal tests of one query term against one document, applied
in the fixed order tag, alias, filename, summary, body. -/
def scoreTerm (d : SDoc) (acc : Nat × List Str) (term : Str) : Nat × List Str :=
  let fileName := basenameNoMd d.relPath
  let acc := addSig (tagMatches d.tags term) 5 (tagTok term) acc
  let acc := addSig (d.aliases.any (fun a => term <:+: toLower a)) 4 (aliasTok term) acc
  let acc := addSig (term <:+: toLower fileName) 3 (fileTok term) acc
  let acc :=
    addSig (match d.summary with
            | some s => term <:+: toLower s
            | none => false) 3 (sumTok term) acc
  addSig (term <:+: toLower d.body) 1 (bodyTok term) acc

/-- Score one document against all query terms. -/
def surfaceDoc (terms : List Str) (d : SDoc) : Nat × List Str :=
  terms.foldl (scoreTerm d) (0, [])

/-- The required-tags pre-filter: at least one required tag must match at
least one document tag, exactly or as a hierarchical prefix. -/
def tagFilterPasses (reqTags : List Str) (tags : List Str) : Bool :=
  reqTags.any (fun req =>
    tags.any (fun t =>
      toLower t = toLower req ∨ (toLower req ++ ['/']) <+: toLower t))

/-- The scored result list in corpus-scan order, before sorting: documents
failing the tag pre-filter or scoring zero are dropped. -/
def scoredOf (terms : List Str) (reqTags : List Str) (docs : List SDoc) :
    List SurfaceResult :=
  docs.filterMap (fun d =>
    if reqTags ≠ [] ∧ ¬ tagFilterPasses reqTags d.tags then none
    else if 0 < (surfaceDoc terms d).1 then
      some ⟨d.relPath, (surfaceDoc terms d).1, d.tags, d.summary,
        (surfaceDoc terms d).2⟩
    else none)

/-- Stable insertion into a score-descending list: later elements pass
earlier ones only when strictly greater (the unique stable order of the
JavaScript sort with comparator `(a, b) => b.score - a.score`). -/
def insertD (x : SurfaceResult) : List SurfaceResult → List SurfaceResult
  | [] => [x]
  | y :: ys => if x.score < y.score then y :: insertD x ys else x :: y :: ys

/-- Stable score-descending sort. -/
def sortD : List SurfaceResult → List SurfaceResult
  | [] => []
  | x :: xs => insertD x (sortD xs)

/-- Query splitting: lower-case, split on whitespace runs, drop empties. -/
def wordsOf (s : Str) : List Str :=
  (s.foldr
    (fun c acc =>
      if isWs c then [] :: acc
      else
        match acc with
        | [] => [[c]]
        | w :: ws => (c :: w) :: ws)
    []).filter (fun w => w ≠ [])

/-- The terms of a query. -/
def termsOf (q : Str) : List Str := wordsOf (toLower q)

/-- The effective result limit (default 10). -/
def limitOf (opts : SOpts) : Nat := opts.limit.getD 10

/-- `Vault.surface` over a corpus snapshot. -/
def surface (q : Str) (opts : SOpts) (docs : List SDoc) : List SurfaceResult :=
  let terms := termsOf q
  if terms = [] then []
  else (sortD (scoredOf terms opts.tags docs)).take (limitOf opts)

/-! ### Full-text search (`Vault.search`) -/

/-- One entry of the `search` result list. -/
structure SearchResult where
  path : Str
  name : Str
  matchLines : List Str
  deriving DecidableEq

/-- Whether a line matches the (already lower-cased) query. -/
def lineMatches (lq : Str) (line : Str) : Bool := lq <:+: toLower line

/-- `Vault.search` over a corpus snapshot: per markdown file, collect the
trimmed matching lines; files with none are skipped. -/
def searchCorpus (q : Str) (corpus : List MdFile) : List SearchResult :=
  corpus.foldl
    (fun results f =>
      if (((splitOnChar '\n' f.content).filter
          (lineMatches (toLower q))).map jsTrim).isEmpty then results
      else results ++ [⟨f.path, basenameNoMd f.path,
        ((splitOnChar '\n' f.content).filter (lineMatches (toLower q))).map jsTrim⟩])
    []

/-! ### Lemmas about path splitting and rendering -/

theorem splitOnChar_ne_nil (sep : Char) : ∀ p : Str, splitOnChar sep p ≠ []
  | [] => by simp [splitOnChar]
  | c :: rest => by
    unfold splitOnChar
    split
    · simp
    · split <;> simp

theorem sep_not_mem_splitOnChar (sep : Char) (p : Str) :
    ∀ s ∈ splitOnChar sep p, sep ∉ s := by
  induction p with
  | nil =>
    intro s hs
    simp [splitOnChar] at hs
    simp [hs]
  | cons c rest ih =>
    intro s hs
    unfold splitOnChar at hs
    split at hs
    · rcases List.mem_cons.1 hs with h | h
      · simp [h]
      · exact ih s h
    next hc =>
      rcases hsp : splitOnChar sep rest with - | ⟨t, ts⟩
      · exact absurd hsp (splitOnChar_ne_nil sep rest)
      · rw [hsp] at hs
        rcases List.mem_cons.1 hs with h | h
        · subst h
          intro hmem
          rcases List.mem_cons.1 hmem with h' | h'
          · exact hc h'.symm
          · exact ih t (by rw [hsp]; exact List.mem_cons_self t ts) h'
        · exact ih s (by rw [hsp]; exact List.mem_cons_of_mem t h)

theorem saneSegs_normSegs : ∀ (segs : List Str) (init : List Seg),
    SaneSegs init → (∀ s ∈ segs, '/' ∉ s) → SaneSegs (normSegs init segs)
  | [], _, h1, _ => h1
  | s :: rest, init, h1, h2 => by
    unfold normSegs
    split
    · exact saneSegs_normSegs rest init h1 fun t ht => h2 t (List.mem_cons_of_mem s ht)
    · split
      · refine saneSegs_normSegs rest init.dropLast ?_
          fun t ht => h2 t (List.mem_cons_of_mem s ht)
        exact fun t ht => h1 t (List.mem_of_mem_dropLast ht)
      next hne _ =>
        refine saneSegs_normSegs rest (init ++ [s]) ?_
          fun t ht => h2 t (List.mem_cons_of_mem s ht)
        intro t ht
        rcases List.mem_append.1 ht with h | h
        · exact h1 t h
        · rcases List.mem_singleton.1 h with rfl
          exact ⟨fun he => hne (Or.inl he), h2 t (List.mem_cons_self t rest)⟩

theorem sep_append_pre {u v : Str} : ∀ (r o : Str), '/' ∉ r → '/' ∉ o →
    ((r ++ '/' :: u) <+: (o ++ '/' :: v) ↔ r = o ∧ u <+: v)
  | [], [], _, _ => by simp [List.cons_prefix_cons]
  | [], c :: o', _, ho => by
    simp only [List.nil_append, List.cons_append, List.cons_prefix_cons]
    constructor
    · rintro ⟨h, -⟩
      exact absurd (h ▸ List.mem_cons_self c o') ho
    · rintro ⟨h, -⟩
      exact absurd h (by simp)
  | a :: r', [], hr, _ => by
    simp only [List.cons_append, List.nil_append, List.cons_prefix_cons]
    constructor
    · rintro ⟨rfl, -⟩
      exact absurd (List.mem_cons_self _ r') hr
    · rintro ⟨h, -⟩
      exact absurd h (by simp)
  | a :: r', c :: o', hr, ho => by
    simp only [List.cons_append, List.cons_prefix_cons]
    rw [sep_append_pre r' o' (fun h => hr (List.mem_cons_of_mem a h))
      (fun h => ho (List.mem_cons_of_mem c h))]
    simp [List.cons.injEq, and_assoc]

theorem sep_append_eq {u v : Str} : ∀ (r o : Str), '/' ∉ r → '/' ∉ o →
    (r ++ '/' :: u = o ++ '/' :: v ↔ r = o ∧ u = v)
  | [], [], _, _ => by simp
  | [], c :: o', _, ho => by
    simp only [List.nil_append, List.cons_append, List.cons.injEq]
    constructor
    · rintro ⟨h, -⟩
      exact absurd (h ▸ List.mem_cons_self c o') ho
    · rintro ⟨h, -⟩
      exact absurd h (by simp)
  | a :: r', [], hr, _ => by
    simp only [List.cons_append, List.nil_append, List.cons.injEq]
    constructor
    · rintro ⟨rfl, -⟩
      exact absurd (List.mem_cons_self _ r') hr
    · rintro ⟨h, -⟩
      exact absurd h (by simp)
  | a :: r', c :: o', hr, ho => by
    simp only [List.cons_append, List.cons.injEq]
    rw [sep_append_eq r' o' (fun h => hr (List.mem_cons_of_mem a h))
      (fun h => ho (List.mem_cons_of_mem c h))]
    simp [List.cons.injEq, and_assoc]

theorem seg_append_strOfAbs_eq {r o : Str} (hr : '/' ∉ r) (ho : '/' ∉ o) :
    ∀ (rs os : List Seg),
      (r ++ strOfAbs rs = o ++ strOfAbs os ↔ r = o ∧ strOfAbs rs = strOfAbs os)
  | [], [] => by simp [strOfAbs]
  | [], b :: bs => by
    simp only [strOfAbs, List.append_nil]
    constructor
    · intro h
      exact absurd (h ▸ List.mem_append_right o (List.mem_cons_self '/' _)) hr
    · rintro ⟨-, h⟩
      exact absurd h (by simp)
  | a :: as, [] => by
    simp only [strOfAbs, List.append_nil]
    constructor
    · intro h
      exact absurd (h.symm ▸ List.mem_append_right r (List.mem_cons_self '/' _)) ho
    · rintro ⟨-, h⟩
      exact absurd h (by simp)
  | a :: as, b :: bs => by
    simp only [strOfAbs]
    rw [sep_append_eq r o hr ho, List.cons.injEq]
    simp

theorem strOfAbs_inj : ∀ (rs os : List Seg), SaneSegs rs → SaneSegs os →
    (strOfAbs rs = strOfAbs os ↔ rs = os)
  | [], [], _, _ => by simp
  | [], _ :: _, _, _ => by simp [strOfAbs]
  | _ :: _, [], _, _ => by simp [strOfAbs]
  | r :: rs', o :: os', hrs, hos => by
    have hr : '/' ∉ r := (hrs r (List.mem_cons_self r rs')).2
    have ho : '/' ∉ o := (hos o (List.mem_cons_self o os')).2
    have hrs' : SaneSegs rs' := fun t ht => hrs t (List.mem_cons_of_mem r ht)
    have hos' : SaneSegs os' := fun t ht => hos t (List.mem_cons_of_mem o ht)
    show '/' :: (r ++ strOfAbs rs') = '/' :: (o ++ strOfAbs os') ↔ _
    rw [List.cons.injEq, seg_append_strOfAbs_eq hr ho rs' os',
      strOfAbs_inj rs' os' hrs' hos', List.cons.injEq]
    simp

theorem not_prefix_of_sep_mem {l x : Str} (hx : '/' ∉ x) (hmem : '/' ∈ l) :
    ¬ l <+: x := fun h => hx (h.sublist.mem hmem)

theorem strOfAbs_strict_pre : ∀ (rs os : List Seg), SaneSegs rs → SaneSegs os →
    ((strOfAbs rs ++ ['/']) <+: strOfAbs os ↔ rs <+: os ∧ rs ≠ os)
  | [], [], _, _ => by simp [strOfAbs]
  | [], o :: os', _, _ => by
    simp [strOfAbs, List.cons_prefix_cons]
  | _ :: _, [], _, _ => by
    simp [strOfAbs, List.prefix_nil]
  | r :: rs', o :: os', hrs, hos => by
    have hr : '/' ∉ r := (hrs r (List.mem_cons_self r rs')).2
    have ho : '/' ∉ o := (hos o (List.mem_cons_self o os')).2
    have hrs' : SaneSegs rs' := fun t ht => hrs t (List.mem_cons_of_mem r ht)
    have hos' : SaneSegs os' := fun t ht => hos t (List.mem_cons_of_mem o ht)
    have ihiff := strOfAbs_strict_pre rs' os' hrs' hos'
    show ('/' :: (r ++ strOfAbs rs')) ++ ['/'] <+: '/' :: (o ++ strOfAbs os') ↔ _
    rw [List.cons_append, List.cons_prefix_cons, List.append_assoc]
    simp only [eq_self_iff_true, true_and]
    cases rs' with
    | nil =>
      cases os' with
      | nil =>
        simp only [strOfAbs, List.nil_append, List.append_nil]
        constructor
        · intro h
          exact absurd h (not_prefix_of_sep_mem ho (by simp))
        · rintro ⟨h, hne⟩
          rcases List.cons_prefix_cons.1 h with ⟨rfl, -⟩
          exact absurd rfl hne
      | cons b bs =>
        simp only [strOfAbs, List.nil_append]
        rw [sep_append_pre r o hr ho]
        constructor
        · rintro ⟨rfl, -⟩
          exact ⟨List.cons_prefix_cons.2 ⟨rfl, List.nil_prefix⟩, by simp⟩
        · rintro ⟨h, -⟩
          rcases List.cons_prefix_cons.1 h with ⟨rfl, -⟩
          exact ⟨rfl, List.nil_prefix⟩
    | cons a as =>
      cases os' with
      | nil =>
        simp only [strOfAbs, List.append_nil]
        constructor
        · intro h
          exact absurd h (not_prefix_of_sep_mem ho (by simp))
        · rintro ⟨h, -⟩
          rcases List.cons_prefix_cons.1 h with ⟨-, h2⟩
          exact absurd (List.prefix_nil.1 h2) (by simp)
      | cons b bs =>
        simp only [strOfAbs]
        rw [List.cons_append, sep_append_pre r o hr ho]
        have h2 : ((a ++ strOfAbs as) ++ ['/'] <+: b ++ strOfAbs bs) ↔
            (a :: as <+: b :: bs ∧ a :: as ≠ b :: bs) := by
          rw [← ihiff]
          show _ ↔ ('/' :: (a ++ strOfAbs as)) ++ ['/'] <+: '/' :: (b ++ strOfAbs bs)
          rw [List.cons_append, List.cons_prefix_cons]
          simp
        rw [h2]
        constructor
        · rintro ⟨rfl, h3, h4⟩
          refine ⟨List.cons_prefix_cons.2 ⟨rfl, h3⟩, ?_⟩
          simpa using h4
        · rintro ⟨h3, h4⟩
          rcases List.cons_prefix_cons.1 h3 with ⟨rfl, h5⟩
          exact ⟨rfl, h5, fun he => h4 (by rw [he])⟩

/-- C1: for every user-supplied path string `p`, `resolveSafe` fails with
`PathEscapesRoot` exactly when the normalized absolute form of
`vaultRoot/p` (Node `resolve`) is neither the vault root itself nor a
strict descendant of it; when it succeeds it returns that normalized
absolute path, which is prefixed by the vault root; and the empty string
resolves to the root itself. -/
theorem resolveSafe_pathGuard (root : List Seg) (p : Str)
    (_hne : root ≠ []) (hsane : SaneSegs root) :
    (resolveSafe root p = .error .pathEscapesRoot ↔
      ¬ (nodeResolve root p = root ∨
         (root <+: nodeResolve root p ∧ nodeResolve root p ≠ root))) ∧
    (∀ s, resolveSafe root p = .ok s →
      s = strOfAbs (nodeResolve root p) ∧ strOfAbs root <+: s) ∧
    resolveSafe root [] = .ok (strOfAbs root) := by
  have hsegs : ∀ s ∈ splitOnChar '/' p, '/' ∉ s := sep_not_mem_splitOnChar '/' p
  have hsaneRes : SaneSegs (nodeResolve root p) := by
    unfold nodeResolve
    split
    · exact saneSegs_normSegs _ [] (by intro s hs; simp at hs)
        (sep_not_mem_splitOnChar '/' _)
    · exact saneSegs_normSegs _ root hsane hsegs
  have heq : (strOfAbs (nodeResolve root p) = strOfAbs root) ↔
      nodeResolve root p = root := strOfAbs_inj _ root hsaneRes hsane
  have hpre := strOfAbs_strict_pre root (nodeResolve root p) hsane hsaneRes
  by_cases hcond : strOfAbs (nodeResolve root p) = strOfAbs root ∨
      (strOfAbs root ++ ['/']) <+: strOfAbs (nodeResolve root p)
  · have hin : nodeResolve root p = root ∨
        (root <+: nodeResolve root p ∧ nodeResolve root p ≠ root) := by
      rcases hcond with h | h
      · exact Or.inl (heq.1 h)
      · exact Or.inr ⟨(hpre.1 h).1, Ne.symm (hpre.1 h).2⟩
    refine ⟨?_, ?_, ?_⟩
    · simp only [resolveSafe, if_pos hcond]
      simp [hin]
    · intro s hs
      simp only [resolveSafe, if_pos hcond, Except.ok.injEq] at hs
      subst hs
      refine ⟨rfl, ?_⟩
      rcases hcond with h | h
      · rw [h]
      · exact List.IsPrefix.trans (List.prefix_append _ _) h
    · simp [resolveSafe, nodeResolve, splitOnChar, normSegs]
  · refine ⟨?_, ?_, ?_⟩
    · simp only [resolveSafe, if_neg hcond]
      constructor
      · intro _ hin
        rcases hin with h | ⟨h1, h2⟩
        · exact hcond (Or.inl (heq.2 h))
        · exact hcond (Or.inr (hpre.2 ⟨h1, Ne.symm h2⟩))
      · intro _
        trivial
    · intro s hs
      simp only [resolveSafe, if_neg hcond] at hs
      exact absurd hs (by simp)
    · simp [resolveSafe, nodeResolve, splitOnChar, normSegs]

/-- Witness for C1 at the concrete root `/vault` and path `"../x"`. -/
theorem resolveSafe_pathGuard_witness :
    ([['v', 'a', 'u', 'l', 't']] : List Seg) ≠ [] ∧
    SaneSegs [['v', 'a', 'u', 'l', 't']] ∧
    resolveSafe [['v', 'a', 'u', 'l', 't']] ('.' :: '.' :: '/' :: 'x' :: []) =
      .error .pathEscapesRoot := by
  refine ⟨by decide, by decide, ?_⟩
  exact (resolveSafe_pathGuard [['v', 'a', 'u', 'l', 't']]
    ('.' :: '.' :: '/' :: 'x' :: []) (by decide) (by decide)).1.mpr (by decide)

/-! ### Concrete corpora used in witnesses and counterexamples -/

/-- Two documents sharing the lower-cased basename `note`. -/
def twoNotes : List MdFile :=
  [⟨"a/note.md".data, "".data⟩, ⟨"b/note.md".data, "[[a/note]]".data⟩]

/-- A one-document corpus with a separator-qualified path. -/
def oneNote : List MdFile := [⟨"a/note.md".data, "".data⟩]

/-- A single self-referencing document. -/
def selfCorpus : List MdFile := [⟨"self.md".data, "Links to [[self]]".data⟩]

/-- Document A referencing B through three syntactic wikilink variants. -/
def abCorpus : List MdFile :=
  [⟨"A.md".data, "[[B]] and [[B|alias]] and [[B#heading]]".data⟩,
   ⟨"B.md".data, "Target".data⟩]

/-- C6: a self-referencing document yields one node at depth 0 and one
self-edge, with no re-enqueue (the traversal terminates with exactly this
result). -/
theorem graph_self_loop :
    graphCore selfCorpus "self.md".data 1 .forward =
      { root := "self.md".data
        nodes := [⟨"self.md".data, 0, true⟩]
        edges := [("self.md".data, "self.md".data)] } := by decide

/-- C2 counterexample: the token `a/note` contains a separator and the
corpus contains a document whose path is exactly `a/note.md`, yet
resolution returns `none` (the basename index only retains the
last-scanned `note`). -/
theorem resolveWikilink_corpus_counterexample :
    ("a/note".data.contains '/' = true) ∧
    (∃ f ∈ twoNotes, f.path = stripMd "a/note".data ++ mdExt) ∧
    resolveWikilink "a/note".data (fileIndexOf twoNotes) = none := by decide

/-- C2 (amended): for a separator-containing token, resolution searches
the values of the basename index (not the full corpus); whenever some
index value equals `normalized + ".md"` case-insensitively, it returns
such a value in its original on-disk case. -/
theorem resolveWikilink_index_values (fi : List (Str × Str)) (target : Str)
    (hsep : target.contains '/' = true)
    (hmem : ∃ kv ∈ fi, toLower kv.2 = toLower (stripMd target ++ mdExt)) :
    ∃ p ∈ mapValues fi, resolveWikilink target fi = some p ∧
      toLower p = toLower (stripMd target ++ mdExt) := by
  have hfind : (fi.find? (fun kv =>
      decide (kv.2 = stripMd target ++ mdExt) ||
      decide (toLower kv.2 = toLower (stripMd target ++ mdExt)))).isSome := by
    apply List.find?_isSome.mpr
    obtain ⟨kv, hkv, he⟩ := hmem
    exact ⟨kv, hkv, by simp [he]⟩
  obtain ⟨kv, hkv⟩ := Option.isSome_iff_exists.mp hfind
  have hpred := List.find?_some hkv
  have hmem' := List.mem_of_find?_eq_some hkv
  have hlow : toLower kv.2 = toLower (stripMd target ++ mdExt) := by
    rcases (by simpa using hpred : kv.2 = stripMd target ++ mdExt ∨
        toLower kv.2 = toLower (stripMd target ++ mdExt)) with h | h
    · rw [h]
    · exact h
  have hsep' : '/' ∈ target := by simpa using hsep
  refine ⟨kv.2, List.mem_map_of_mem _ hmem', ?_, hlow⟩
  simp [resolveWikilink, hsep', hkv]

/-- Witness for the amended C2 on a concrete one-document corpus. -/
theorem resolveWikilink_index_values_witness :
    ("a/note".data.contains '/' = true) ∧
    (∃ kv ∈ fileIndexOf oneNote,
      toLower kv.2 = toLower (stripMd "a/note".data ++ mdExt)) ∧
    ∃ p ∈ mapValues (fileIndexOf oneNote),
      resolveWikilink "a/note".data (fileIndexOf oneNote) = some p ∧
        toLower p = toLower (stripMd "a/note".data ++ mdExt) := by
  refine ⟨by decide, by decide, ?_⟩
  exact resolveWikilink_index_values (fileIndexOf oneNote) "a/note".data
    (by decide) (by decide)

/-- C3 counterexample: `a/note.md` is a real corpus document, yet the
depth-0 graph reports its root node with `exists = false`. -/
theorem graph_depthZero_counterexample :
    ("a/note.md".data ∈ twoNotes.map (fun f => f.path)) ∧
    (graphCore twoNotes "a/note.md".data 0 .both).nodes =
      [⟨"a/note.md".data, 0, false⟩] ∧
    (graphCore twoNotes "a/note.md".data 0 .both).edges = [] := by decide

/-- C3 (amended): a depth limit of 0 returns exactly one node — the root
at depth 0, whose `exists` flag is its membership in the values of the
per-call basename index — and an empty edge list. -/
theorem graph_depthZero (corpus : List MdFile) (rootPath : Str) (dir : Dir) :
    graphCore corpus rootPath 0 dir =
      { root := rootPath
        nodes := [⟨rootPath, 0, (mapValues (fileIndexOf corpus)).contains rootPath⟩]
        edges := [] } := by
  simp [graphCore, graphGo]

/-! ### Edge deduplication invariant -/

theorem stepNeighbors_edges_nodup (current : Str) (nextDepth : Nat) :
    ∀ (es : List (Str × Str)) (nodes : List (Str × Nat))
      (edges : List (Str × Str)) (newQ : List (Str × Nat)), edges.Nodup →
      (stepNeighbors current nextDepth es nodes edges newQ).2.1.Nodup
  | [], _, _, _, h => h
  | e :: es, nodes, edges, newQ, h => by
    have hed : (if edges.contains e then edges else edges ++ [e]).Nodup := by
      split
      · exact h
      next hc =>
        have he : e ∉ edges := by simpa using hc
        simp [List.nodup_append, h, he]
    simp only [stepNeighbors]
    split <;> split
    all_goals exact stepNeighbors_edges_nodup current nextDepth es _ _ _ hed

theorem graphGo_edges_nodup (fwd bwd : List (Str × List Str)) (dir : Dir)
    (dl : Nat) :
    ∀ (fuel : Nat) (queue nodes : List (Str × Nat)) (edges : List (Str × Str)),
      edges.Nodup → (graphGo fwd bwd dir dl fuel queue nodes edges).2.Nodup
  | 0, _, _, _, h => h
  | _ + 1, [], _, _, h => h
  | fuel + 1, (p, d) :: rest, nodes, edges, h => by
    simp only [graphGo]
    split
    · exact graphGo_edges_nodup fwd bwd dir dl fuel rest nodes edges h
    · exact graphGo_edges_nodup fwd bwd dir dl fuel _ _ _
        (stepNeighbors_edges_nodup _ _ _ _ _ _ h)

/-- C4: the returned edge list never contains the same (source, target)
pair twice, whatever the corpus, root, depth and direction; and on the
concrete corpus where A references B by `[[B]]`, `[[B|alias]]` and
`[[B#heading]]`, the forward graph of A has exactly the single edge
(A, B). -/
theorem graph_edges_dedup :
    (∀ (corpus : List MdFile) (rootPath : Str) (depthLimit : Nat) (dir : Dir),
      (graphCore corpus rootPath depthLimit dir).edges.Nodup) ∧
    (graphCore abCorpus "A.md".data 1 .forward).edges =
      [("A.md".data, "B.md".data)] := by
  refine ⟨?_, by decide⟩
  intro corpus rootPath depthLimit dir
  simp only [graphCore]
  exact graphGo_edges_nodup _ _ _ _ _ _ _ _ List.nodup_nil

/-! ### The basename index retains only the last-scanned path per key -/

theorem mapGet_mapSet {β : Type} (m : List (Str × β)) (k k' : Str) (v : β) :
    mapGet (mapSet m k v) k' = if k' = k then some v else mapGet m k' := by
  induction m with
  | nil =>
    by_cases h : k' = k
    · simp [mapSet, mapGet, h]
    · simp [mapSet, mapGet, h, Ne.symm h]
  | cons kv rest ih =>
    obtain ⟨a, b⟩ := kv
    by_cases hak : a = k
    · subst hak
      by_cases h : k' = a
      · subst h
        simp [mapSet, mapGet]
      · simp [mapSet, mapGet, h, Ne.symm h]
    · by_cases hak' : a = k'
      · subst hak'
        simp [mapSet, mapGet, hak]
      · simp [mapSet, mapGet, hak, hak', ih]

theorem mapGet_foldl_mapSet (key : MdFile → Str) :
    ∀ (files : List MdFile) (m : List (Str × Str)) (k : Str),
      mapGet (files.foldl (fun acc f => mapSet acc (key f) f.path) m) k =
        match (files.filter (fun f => key f = k)).getLast? with
        | some g => some g.path
        | none => mapGet m k
  | [], m, k => by simp
  | f :: fs, m, k => by
    show mapGet (fs.foldl _ (mapSet m (key f) f.path)) k = _
    rw [mapGet_foldl_mapSet key fs (mapSet m (key f) f.path) k]
    rcases hlast : (fs.filter (fun x => key x = k)).getLast? with - | g
    · have hnil : fs.filter (fun x => key x = k) = [] :=
        List.getLast?_eq_none_iff.1 hlast
      by_cases hk : key f = k
      · rw [List.filter_cons_of_pos (by simp [hk]), hnil]
        simp [mapGet_mapSet, hk.symm]
      · rw [List.filter_cons_of_neg (by simp [hk]), hnil]
        simp [mapGet_mapSet, Ne.symm hk]
    · have hne : fs.filter (fun x => key x = k) ≠ [] := by
        intro hh
        rw [hh] at hlast
        simp at hlast
      by_cases hk : key f = k
      · rw [List.filter_cons_of_pos (by simp [hk])]
        obtain ⟨x, xs, hxe⟩ := List.exists_cons_of_ne_nil hne
        rw [hxe, show (f :: x :: xs).getLast? = (x :: xs).getLast? from by
          simp [List.getLast?], ← hxe, hlast]
      · rw [List.filter_cons_of_neg (by simp [hk]), hlast]

/-- C9: the basename→path table retains only the last-scanned document per
lower-cased basename; on a corpus where `a/note.md` is shadowed by
`b/note.md`, the real document `a/note.md` is reported with
`exists = false` and the separator-qualified token `a/note` resolves to
`none` (dangling). -/
theorem fileIndex_shadowing :
    (∀ (files : List MdFile) (k : Str),
      mapGet (fileIndexOf files) k =
        match (files.filter
            (fun f => toLower (basenameNoMd f.path) = k)).getLast? with
        | some g => some g.path
        | none => none) ∧
    ("a/note.md".data ∈ twoNotes.map (fun f => f.path)) ∧
    (graphCore twoNotes "a/note.md".data 0 .both).nodes =
      [⟨"a/note.md".data, 0, false⟩] ∧
    resolveWikilink "a/note".data (fileIndexOf twoNotes) = none := by
  refine ⟨?_, by decide, by decide, by decide⟩
  intro files k
  have h := mapGet_foldl_mapSet (fun f => toLower (basenameNoMd f.path)) files [] k
  simpa [fileIndexOf, mapGet] using h

/-! ### Sorting lemmas for the surface ranking -/

theorem mem_insertD (x a : SurfaceResult) :
    ∀ l : List SurfaceResult, a ∈ insertD x l ↔ a = x ∨ a ∈ l
  | [] => by simp [insertD]
  | y :: ys => by
    unfold insertD
    split
    · rw [List.mem_cons, mem_insertD x a ys, List.mem_cons]
      tauto
    · simp [List.mem_cons]

theorem mem_sortD (a : SurfaceResult) :
    ∀ l : List SurfaceResult, a ∈ sortD l ↔ a ∈ l
  | [] => Iff.rfl
  | x :: xs => by
    show a ∈ insertD x (sortD xs) ↔ _
    rw [mem_insertD, mem_sortD a xs, List.mem_cons]

theorem sorted_insertD (x : SurfaceResult) :
    ∀ l : List SurfaceResult,
      l.Pairwise (fun a b => b.score ≤ a.score) →
      (insertD x l).Pairwise (fun a b => b.score ≤ a.score)
  | [], _ => by simp [insertD]
  | y :: ys, h => by
    rcases List.pairwise_cons.1 h with ⟨hy, hys⟩
    unfold insertD
    split
    next hlt =>
      refine List.pairwise_cons.2 ⟨?_, sorted_insertD x ys hys⟩
      intro b hb
      rcases (mem_insertD x b ys).1 hb with rfl | hbmem
      · exact Nat.le_of_lt hlt
      · exact hy b hbmem
    next hnlt =>
      refine List.pairwise_cons.2 ⟨?_, h⟩
      intro b hb
      rcases List.mem_cons.1 hb with rfl | hbmem
      · exact Nat.le_of_not_lt hnlt
      · exact Nat.le_trans (hy b hbmem) (Nat.le_of_not_lt hnlt)

theorem sortD_sorted :
    ∀ l : List SurfaceResult,
      (sortD l).Pairwise (fun a b => b.score ≤ a.score)
  | [] => List.Pairwise.nil
  | x :: xs => sorted_insertD x (sortD xs) (sortD_sorted xs)

theorem filter_insertD (x : SurfaceResult) (s : Nat) :
    ∀ l : List SurfaceResult,
      (insertD x l).filter (fun r => r.score = s) =
        if x.score = s then x :: l.filter (fun r => r.score = s)
        else l.filter (fun r => r.score = s)
  | [] => by
    by_cases hx : x.score = s <;> simp [insertD, hx]
  | y :: ys => by
    unfold insertD
    split
    next hlt =>
      by_cases hx : x.score = s
      · have hy : ¬ y.score = s := by omega
        simp [List.filter_cons, hy, filter_insertD x s ys, hx]
      · simp [List.filter_cons, filter_insertD x s ys, hx]
    next hnlt =>
      by_cases hx : x.score = s <;> simp [List.filter_cons, hx]

theorem filter_score_sortD (s : Nat) :
    ∀ l : List SurfaceResult,
      (sortD l).filter (fun r => r.score = s) =
        l.filter (fun r => r.score = s)
  | [] => rfl
  | x :: xs => by
    show (insertD x (sortD xs)).filter _ = _
    rw [filter_insertD]
    by_cases hx : x.score = s
    · simp [hx, List.filter_cons, filter_score_sortD s xs]
    · simp [hx, List.filter_cons, filter_score_sortD s xs]

theorem scoredOf_nil_terms (reqTags : List Str) (docs : List SDoc) :
    scoredOf [] reqTags docs = [] := by
  rw [scoredOf, List.filterMap_eq_nil_iff]
  intro d _
  simp [surfaceDoc]

/-- Five documents of identical score for the limit test. -/
def fiveDocs : List SDoc :=
  [⟨"n1.md".data, [], [], none, "test".data⟩,
   ⟨"n2.md".data, [], [], none, "test".data⟩,
   ⟨"n3.md".data, [], [], none, "test".data⟩,
   ⟨"n4.md".data, [], [], none, "test".data⟩,
   ⟨"n5.md".data, [], [], none, "test".data⟩]

/-- C7: surface returns the limit-truncation of the stable score-descending
sort of the scored corpus list: at most `limit` results (default 10),
scores non-increasing, and within every score class the corpus-scan order
is preserved; in particular the concrete query with limit 2 over five
equally-scoring documents returns exactly 2 results. -/
theorem surface_sorted_stable_limited :
    (∀ (q : Str) (opts : SOpts) (docs : List SDoc),
      surface q opts docs =
        (sortD (scoredOf (termsOf q) opts.tags docs)).take (limitOf opts) ∧
      (surface q opts docs).length ≤ limitOf opts ∧
      (sortD (scoredOf (termsOf q) opts.tags docs)).Pairwise
        (fun a b => b.score ≤ a.score) ∧
      (∀ s, (sortD (scoredOf (termsOf q) opts.tags docs)).filter
          (fun r => r.score = s) =
        (scoredOf (termsOf q) opts.tags docs).filter (fun r => r.score = s))) ∧
    (surface "test".data ⟨[], some 2⟩ fiveDocs).length = 2 := by
  refine ⟨?_, by decide⟩
  intro q opts docs
  have heq : surface q opts docs =
      (sortD (scoredOf (termsOf q) opts.tags docs)).take (limitOf opts) := by
    simp only [surface]
    split
    next hterms =>
      rw [hterms, scoredOf_nil_terms]
      simp [sortD]
    next hterms => rfl
  refine ⟨heq, ?_, sortD_sorted _, fun s => filter_score_sortD s _⟩
  rw [heq]
  exact List.length_take_le _ _

/-! ### The score is determined by the matched signal tokens -/

/-- The `tag:` token head. -/
def tagPfx : Str := ['t', 'a', 'g', ':']
/-- The `alias:` token head. -/
def aliasPfx : Str := ['a', 'l', 'i', 'a', 's', ':']
/-- The `filename:` token head. -/
def filePfx : Str := ['f', 'i', 'l', 'e', 'n', 'a', 'm', 'e', ':']
/-- The `summary:` token head. -/
def sumPfx : Str := ['s', 'u', 'm', 'm', 'a', 'r', 'y', ':']
/-- The `body:` token head. -/
def bodyPfx : Str := ['b', 'o', 'd', 'y', ':']

/-- The weighted count of signal tokens: 5 per `tag:` token, 4 per
`alias:`, 3 per `filename:`, 3 per `summary:`, 1 per `body:`. -/
def weightedOf (sigs : List Str) : Nat :=
  5 * sigs.countP (fun t => tagPfx.isPrefixOf t) +
  4 * sigs.countP (fun t => aliasPfx.isPrefixOf t) +
  3 * sigs.countP (fun t => filePfx.isPrefixOf t) +
  3 * sigs.countP (fun t => sumPfx.isPrefixOf t) +
  sigs.countP (fun t => bodyPfx.isPrefixOf t)

theorem weightedOf_append (s1 s2 : List Str) :
    weightedOf (s1 ++ s2) = weightedOf s1 + weightedOf s2 := by
  simp only [weightedOf, List.countP_append]
  ring

theorem weightedOf_tagTok (t : Str) : weightedOf [tagTok t] = 5 := by
  simp [weightedOf, tagTok, tagPfx, aliasPfx, filePfx, sumPfx, bodyPfx,
    List.countP_cons, List.isPrefixOf]

theorem weightedOf_aliasTok (t : Str) : weightedOf [aliasTok t] = 4 := by
  simp [weightedOf, aliasTok, tagPfx, aliasPfx, filePfx, sumPfx, bodyPfx,
    List.countP_cons, List.isPrefixOf]

theorem weightedOf_fileTok (t : Str) : weightedOf [fileTok t] = 3 := by
  simp [weightedOf, fileTok, tagPfx, aliasPfx, filePfx, sumPfx, bodyPfx,
    List.countP_cons, List.isPrefixOf]

theorem weightedOf_sumTok (t : Str) : weightedOf [sumTok t] = 3 := by
  simp [weightedOf, sumTok, tagPfx, aliasPfx, filePfx, sumPfx, bodyPfx,
    List.countP_cons, List.isPrefixOf]

theorem weightedOf_bodyTok (t : Str) : weightedOf [bodyTok t] = 1 := by
  simp [weightedOf, bodyTok, tagPfx, aliasPfx, filePfx, sumPfx, bodyPfx,
    List.countP_cons, List.isPrefixOf]

theorem addSig_weight (cond : Bool) (w : Nat) (tok : Str) (acc : Nat × List Str)
    (h : acc.1 = weightedOf acc.2) (hw : weightedOf [tok] = w) :
    (addSig cond w tok acc).1 = weightedOf (addSig cond w tok acc).2 := by
  unfold addSig
  split
  · show acc.1 + w = weightedOf (acc.2 ++ [tok])
    rw [weightedOf_append, h, hw]
  · exact h

theorem scoreTerm_weight (d : SDoc) (acc : Nat × List Str) (term : Str)
    (h : acc.1 = weightedOf acc.2) :
    (scoreTerm d acc term).1 = weightedOf (scoreTerm d acc term).2 := by
  unfold scoreTerm
  exact addSig_weight _ _ _ _
    (addSig_weight _ _ _ _
      (addSig_weight _ _ _ _
        (addSig_weight _ _ _ _
          (addSig_weight _ _ _ _ h (weightedOf_tagTok term))
          (weightedOf_aliasTok term))
        (weightedOf_fileTok term))
      (weightedOf_sumTok term))
    (weightedOf_bodyTok term)

theorem surfaceDoc_weight (d : SDoc) :
    ∀ (terms : List Str) (acc : Nat × List Str),
      acc.1 = weightedOf acc.2 →
      (terms.foldl (scoreTerm d) acc).1 =
        weightedOf (terms.foldl (scoreTerm d) acc).2
  | [], _, h => h
  | term :: rest, acc, h =>
    surfaceDoc_weight d rest (scoreTerm d acc term) (scoreTerm_weight d acc term h)

/-- C10: every result returned by surface has a strictly positive score
equal to 5 per `tag:` token plus 4 per `alias:` token plus 3 per
`filename:` token plus 3 per `summary:` token plus 1 per `body:` token of
its `matchedSignals`. -/
theorem surface_score_invariant (q : Str) (opts : SOpts) (docs : List SDoc)
    (r : SurfaceResult) (hr : r ∈ surface q opts docs) :
    r.score = weightedOf r.matchedSignals ∧ 0 < r.score := by
  have h1 : r ∈ sortD (scoredOf (termsOf q) opts.tags docs) := by
    revert hr
    simp only [surface]
    split
    · intro hr
      simp at hr
    · intro hr
      exact List.mem_of_mem_take hr
  have h2 : r ∈ scoredOf (termsOf q) opts.tags docs := (mem_sortD r _).1 h1
  rw [scoredOf] at h2
  obtain ⟨d, _, hfd⟩ := List.mem_filterMap.1 h2
  revert hfd
  split
  · intro hfd
    exact absurd hfd (by simp)
  · split
    next hpos =>
      intro hfd
      obtain rfl := (Option.some.inj hfd).symm
      refine ⟨?_, hpos⟩
      exact surfaceDoc_weight d (termsOf q) (0, []) (by simp [weightedOf])
    next =>
      intro hfd
      exact absurd hfd (by simp)

/-- Witness for C10 on the five-document corpus. -/
theorem surface_score_invariant_witness :
    ((⟨"n1.md".data, 1, [], none, [bodyTok "test".data]⟩ : SurfaceResult) ∈
      surface "test".data ⟨[], some 2⟩ fiveDocs) ∧
    ((1 : Nat) = weightedOf [bodyTok "test".data] ∧ (0 : Nat) < 1) := by
  refine ⟨by decide, ?_⟩
  exact surface_score_invariant "test".data ⟨[], some 2⟩ fiveDocs
    ⟨"n1.md".data, 1, [], none, [bodyTok "test".data]⟩ (by decide)

/-! ### Five-signal scoring of a single term -/

/-- C5: against a single-term query, a document whose tags contain the
term exactly, whose aliases contain it case-insensitively, and whose
filename, summary and body contain it, is returned with the total score
16 = 5+4+3+3+1 and the five signal tokens in the fixed order tag, alias,
filename, summary, body. -/
theorem surface_five_signals (q t : Str) (d : SDoc)
    (hterms : termsOf q = [t])
    (htag : ∃ tg ∈ d.tags, toLower tg = t)
    (halias : ∃ a ∈ d.aliases, t <:+: toLower a)
    (hfile : t <:+: toLower (basenameNoMd d.relPath))
    (hsum : ∃ sm, d.summary = some sm ∧ t <:+: toLower sm)
    (hbody : t <:+: toLower d.body) :
    surface q ⟨[], none⟩ [d] =
      [⟨d.relPath, 16, d.tags, d.summary,
        [tagTok t, aliasTok t, fileTok t, sumTok t, bodyTok t]⟩] := by
  obtain ⟨sm, hs, hinf⟩ := hsum
  have hc1 : tagMatches d.tags t = true := by
    obtain ⟨tg, htg, he⟩ := htag
    exact List.any_eq_true.2 ⟨tg, htg, by simp [he]⟩
  have hc2 : d.aliases.any (fun a => decide (t <:+: toLower a)) = true := by
    obtain ⟨a, ha, hai⟩ := halias
    exact List.any_eq_true.2 ⟨a, ha, by simp [hai]⟩
  have hsc : surfaceDoc [t] d =
      (16, [tagTok t, aliasTok t, fileTok t, sumTok t, bodyTok t]) := by
    simp only [surfaceDoc, List.foldl_cons, List.foldl_nil, scoreTerm, hs]
    simp [addSig, hc1, hc2, hfile, hinf, hbody]
  simp only [surface, hterms]
  simp [scoredOf, hsc, sortD, insertD, limitOf]

/-- The `dotnet.md` example document. -/
def dotnetDoc : SDoc :=
  ⟨"dotnet.md".data, ["dotnet".data], ["dotnet guide".data],
    some "A dotnet overview".data, "Learn about dotnet here".data⟩

/-- Witness for C5 on the `dotnet.md` example. -/
theorem surface_five_signals_witness :
    (termsOf "dotnet".data = ["dotnet".data]) ∧
    surface "dotnet".data ⟨[], none⟩ [dotnetDoc] =
      [⟨dotnetDoc.relPath, 16, dotnetDoc.tags, dotnetDoc.summary,
        [tagTok "dotnet".data, aliasTok "dotnet".data, fileTok "dotnet".data,
          sumTok "dotnet".data, bodyTok "dotnet".data]⟩] := by
  refine ⟨by decide, ?_⟩
  exact surface_five_signals "dotnet".data "dotnet".data dotnetDoc
    (by decide) (by decide) (by decide) (by decide) (by decide) (by decide)

/-! ### Full-text search characterization -/

theorem searchCorpus_go (lq : Str) :
    ∀ (corpus : List MdFile) (acc : List SearchResult),
      corpus.foldl
        (fun results f =>
          if (((splitOnChar '\n' f.content).filter
              (lineMatches lq)).map jsTrim).isEmpty then results
          else results ++ [⟨f.path, basenameNoMd f.path,
            ((splitOnChar '\n' f.content).filter (lineMatches lq)).map jsTrim⟩])
        acc =
      acc ++ (corpus.filter (fun f =>
        (splitOnChar '\n' f.content).any (lineMatches lq))).map
        (fun f => ⟨f.path, basenameNoMd f.path,
          ((splitOnChar '\n' f.content).filter (lineMatches lq)).map jsTrim⟩)
  | [], acc => by simp
  | f :: fs, acc => by
    rw [List.foldl_cons]
    by_cases hm : (splitOnChar '\n' f.content).filter (lineMatches lq) = []
    · have hany : ¬ ((splitOnChar '\n' f.content).any (lineMatches lq) = true) := by
        simp only [List.any_eq_true]
        rintro ⟨x, hx, hpx⟩
        have hmem : x ∈ (splitOnChar '\n' f.content).filter (lineMatches lq) :=
          List.mem_filter.2 ⟨hx, hpx⟩
        rw [hm] at hmem
        simp at hmem
      rw [List.filter_cons_of_neg (by simpa using hany), hm]
      simp only [List.map_nil, List.isEmpty_nil, if_true]
      exact searchCorpus_go lq fs acc
    · have hany : (splitOnChar '\n' f.content).any (lineMatches lq) = true := by
        obtain ⟨x, xs, hxe⟩ := List.exists_cons_of_ne_nil hm
        have hmem : x ∈ (splitOnChar '\n' f.content).filter (lineMatches lq) := by
          rw [hxe]
          exact List.mem_cons_self x xs
        exact List.any_eq_true.2
          ⟨x, (List.mem_filter.1 hmem).1, (List.mem_filter.1 hmem).2⟩
      rw [List.filter_cons_of_pos (by simpa using hany)]
      have hne : ¬ ((((splitOnChar '\n' f.content).filter
          (lineMatches lq)).map jsTrim).isEmpty = true) := by
        simp [hm]
      rw [if_neg hne, List.map_cons, searchCorpus_go lq fs _]
      simp

/-- C8: search returns, in corpus-scan order, exactly those documents with
at least one body line containing the lower-cased query case-insensitively;
each result carries its matching lines trimmed, and documents with no
matching line are excluded. -/
theorem search_scan_order (q : Str) (corpus : List MdFile) :
    searchCorpus q corpus =
      (corpus.filter (fun f =>
        (splitOnChar '\n' f.content).any (lineMatches (toLower q)))).map
        (fun f => ⟨f.path, basenameNoMd f.path,
          ((splitOnChar '\n' f.content).filter
            (lineMatches (toLower q))).map jsTrim⟩) := by
  have h := searchCorpus_go (toLower q) corpus []
  simpa [searchCorpus] using h

end Gneiss
